import Mathlib

/-!
Verification of the plane-sweep segment-intersection repository.

The development shallowly embeds the two source modules:

* `avl_tree.py` — a self-balancing AVL tree used generically; embedded as the
  inductive `AVLTree` with the source's operations.  A Python `AVLTree` object
  is a possibly-empty subtree handle (`node = None` is `leaf`); a `Node`
  together with its two child `AVLTree` objects is `node l k r`.  Parent
  back-references are positional (the parent of a subtree is the node above
  it); the source keeps them consistent with the structure, and the only
  behavioral use (`predecessor`) is embedded by tracking the direction of the
  final descent step.  The cached `height`/`balance` attributes are recomputed
  by `update_heights`/`update_balances` after every mutation and are embedded
  as the structurally computed `height` and `balance`.

* `plane_sweep.py` — the Bentley–Ottmann style sweep driver.  Python floats
  are modeled as exact rationals (the source states "No numerical errors
  occur when using C's double-precision floating point numbers").  Python
  exceptions (TypeError on comparing `None`, AssertionError, AttributeError
  on a `None` handle) are modeled by `Option`: a crashed computation is
  `none`.  Python `==` on `Point`/`Segment` objects is object identity; it is
  embedded as structural identity for points (two coordinate-equal points
  never coexist in an event tree, since the tree rejects comparison-equal
  keys) and as numeric-id equality for segments.
-/

namespace PlaneSweep

/-- Tree embedding of `avl_tree.py`: `leaf` is an `AVLTree` whose `node` is
`None`; `node l k r` is an `AVLTree` holding a `Node` with key `k` and child
subtrees `l`, `r`. -/
inductive AVLTree (α : Type) where
  | leaf
  | node (left : AVLTree α) (key : α) (right : AVLTree α)
deriving DecidableEq

namespace AVLTree

variable {α : Type}

/-- Number of nodes; used as fuel for the rebalancing loop. -/
def size : AVLTree α → Nat
  | leaf => 0
  | node l _ r => size l + size r + 1

/-- `update_heights`: the height of an empty tree is `-1`, otherwise one more
than the larger child height. -/
def height : AVLTree α → Int
  | leaf => -1
  | node l _ r => max (height l) (height r) + 1

/-- `update_balances`: `balance = left.height - right.height`, `0` for an
empty tree. -/
def balance : AVLTree α → Int
  | leaf => 0
  | node l _ r => height l - height r

/-- `rotate_right`.  The source dereferences `self.node` and
`self.node.left.node`; `make_balanced` only calls it when `balance > 1`,
which forces both to exist, so the fallback branch is unreachable from the
source's call sites. -/
def rotate_right : AVLTree α → AVLTree α
  | node (node ll lk lr) k r => node ll lk (node lr k r)
  | t => t

/-- `rotate_left`, mirror of `rotate_right`. -/
def rotate_left : AVLTree α → AVLTree α
  | node l k (node rl rk rr) => node (node l k rl) rk rr
  | t => t

/-- Case-II pre-rotation inside the `balance > 1` block: when the left
child's balance is negative, rotate the left child left first. -/
def pre_left (t : AVLTree α) : AVLTree α :=
  match t with
  | node l x r => node (if balance l < 0 then rotate_left l else l) x r
  | leaf => leaf

/-- Case-III pre-rotation inside the `balance < -1` block: when the right
child's balance is positive, rotate the right child right first. -/
def pre_right (t : AVLTree α) : AVLTree α :=
  match t with
  | node l x r => node l x (if balance r > 0 then rotate_right r else r)
  | leaf => leaf

/-- One iteration of the `while` body of `make_balanced`: the `balance > 1`
block (with the case-II pre-rotation), then — on the updated tree, since the
source re-reads `self.balance` after the first block — the `balance < -1`
block (with the case-III pre-rotation). -/
def balance_step (t : AVLTree α) : AVLTree α :=
  let t1 := if balance t > 1 then rotate_right (pre_left t) else t
  if balance t1 < -1 then rotate_left (pre_right t1) else t1

/-- The `while self.balance < -1 or self.balance > 1` loop of
`make_balanced`, with fuel. -/
def balance_loop : Nat → AVLTree α → AVLTree α
  | 0, t => t
  | n + 1, t =>
    if balance t < -1 ∨ 1 < balance t then balance_loop n (balance_step t) else t

/-- `make_balanced`.  On the trees the source ever passes here the loop runs
at most once (shown in the lemmas below), so the chosen fuel is immaterial. -/
def make_balanced (t : AVLTree α) : AVLTree α :=
  balance_loop (size t + 1) t

section Ops

variable (lt gt beq : α → α → Bool)

/-- `insert(key)`: descend by `key < node.key`, then `key > node.key`; a key
that compares equal is rejected (`res = False`) and nothing is mutated;
`self.make_balanced()` runs on every frame of the descent, including the
frame that created the new leaf and the frame that rejected a duplicate. -/
def insert : AVLTree α → α → AVLTree α × Bool
  | leaf, k => (make_balanced (node leaf k leaf), true)
  | node l x r, k =>
    if lt k x then
      let p := insert l k
      (make_balanced (node p.1 x r), p.2)
    else if gt k x then
      let p := insert r k
      (make_balanced (node l x p.1), p.2)
    else
      (make_balanced (node l x r), false)

/-- `min()`: the leftmost key, `None` on an empty tree. -/
def min : AVLTree α → Option α
  | leaf => none
  | node leaf x _ => some x
  | node (node ll lk lr) _ _ => min (node ll lk lr)

/-- Rightmost key: the loop of `predecessor` over a non-empty left subtree. -/
def tmax : AVLTree α → Option α
  | leaf => none
  | node _ x leaf => some x
  | node _ _ (node rl rk rr) => tmax (node rl rk rr)

/-- `delete(key)`: on `node.key == key`, splice out a node with zero or one
child, otherwise substitute the in-order successor (the `min` of the right
subtree) and delete that key from the right subtree; `make_balanced` runs on
every frame.  The final `none` case of the two-children branch is the
source's `if replacement is not None` sanity check (unreachable, since the
right subtree is non-empty).  When no branch matches (`==`, `<`, `>` all
false) nothing is deleted, matching the source's fall-through. -/
def delete : AVLTree α → α → AVLTree α × Bool
  | leaf, _ => (leaf, false)
  | node l x r, k =>
    if beq x k then
      match l, r with
      | leaf, leaf => (make_balanced leaf, true)
      | leaf, node rl rk rr => (make_balanced (node rl rk rr), true)
      | node ll lk lr, leaf => (make_balanced (node ll lk lr), true)
      | node ll lk lr, node rl rk rr =>
        match min (node rl rk rr) with
        | some m =>
          (make_balanced (node (node ll lk lr) m (delete (node rl rk rr) m).1), true)
        | none => (make_balanced (node l x r), true)
    else if lt k x then
      let p := delete l k
      (make_balanced (node p.1 x r), p.2)
    else if gt k x then
      let p := delete r k
      (make_balanced (node l x p.1), p.2)
    else
      (make_balanced (node l x r), false)


/-- `inorder()`. -/
def inorder : AVLTree α → List α
  | leaf => []
  | node l x r => inorder l ++ x :: inorder r

/-- `successor(find(key))`: the source's `successor` of a node handle is the
minimum of its right subtree only (no parent climbing).  The outer `none`
models `find` returning `None`, in which case the source's callers crash on
the missing handle. -/
def succOfKey : AVLTree α → α → Option (Option α)
  | leaf, _ => none
  | node l x r, k =>
    if beq x k then some (min r)
    else if lt k x then succOfKey l k
    else succOfKey r k

/-- Descent for `predecessor(find(key))`: the maximum of the left subtree;
with an empty left subtree, the parent, but only when the node is its
parent's right child.  `fromR` carries the immediate parent's key exactly
when the last descent step went right. -/
def predAux : AVLTree α → α → Option α → Option (Option α)
  | leaf, _, _ => none
  | node l x r, k, fromR =>
    if beq x k then
      match l with
      | node ll lk lr => some (tmax (node ll lk lr))
      | leaf => some fromR
    else if lt k x then predAux l k none
    else predAux r k (some x)

/-- `predecessor(find(key))`; the root has no parent. -/
def predOfKey (t : AVLTree α) (k : α) : Option (Option α) :=
  predAux lt beq t k none

/-- The membership notion realized by the `insert` descent: a key comparing
equal (`not <` and `not >`) is reachable along the comparison path. -/
def containsG : AVLTree α → α → Bool
  | leaf, _ => false
  | node l x r, k =>
    if lt k x then containsG l k
    else if gt k x then containsG r k
    else true

end Ops

/-- Balance invariant: `|height(left) - height(right)| <= 1` at every node. -/
def AVLBal : AVLTree α → Prop
  | leaf => True
  | node l _ r => (height l - height r).natAbs ≤ 1 ∧ AVLBal l ∧ AVLBal r

instance decAVLBal : ∀ t : AVLTree α, Decidable (AVLBal t)
  | leaf => isTrue trivial
  | node l _ r =>
    have : Decidable (AVLBal l) := decAVLBal l
    have : Decidable (AVLBal r) := decAVLBal r
    by unfold AVLBal; infer_instance

/-- Key membership (as a set of keys). -/
def Mem (z : α) : AVLTree α → Prop
  | leaf => False
  | node l x r => z = x ∨ Mem z l ∨ Mem z r

instance decMem [DecidableEq α] (z : α) : ∀ t : AVLTree α, Decidable (Mem z t)
  | leaf => isFalse id
  | node l _ r =>
    have : Decidable (Mem z l) := decMem z l
    have : Decidable (Mem z r) := decMem z r
    by unfold Mem; infer_instance

/-- Every key of the tree satisfies `p`. -/
def All (p : α → Prop) : AVLTree α → Prop
  | leaf => True
  | node l x r => p x ∧ All p l ∧ All p r

/-- Binary-search-tree order with respect to a linear order. -/
def BST [LinearOrder α] : AVLTree α → Prop
  | leaf => True
  | node l x r => All (· < x) l ∧ All (x < ·) r ∧ BST l ∧ BST r

end AVLTree

open AVLTree

section IntInstantiation

variable {α : Type} [LinearOrder α]

/-- Comparison functions a linear-ordered key type supplies to the tree:
Python's `<`. -/
def ltO : α → α → Bool := fun a b => decide (a < b)

/-- Python's `>`. -/
def gtO : α → α → Bool := fun a b => decide (b < a)

/-- Python's `==` on value-compared keys. -/
def beqO : α → α → Bool := fun a b => decide (a = b)

/-- `insert` on a tree over a fixed linear order. -/
def insertO (t : AVLTree α) (k : α) : AVLTree α × Bool := AVLTree.insert ltO gtO t k

/-- `delete` on a tree over a fixed linear order. -/
def deleteO (t : AVLTree α) (k : α) : AVLTree α × Bool := AVLTree.delete ltO gtO beqO t k

/-- States of the balanced ordered structure reachable from the empty tree by
insert and delete operations under a fixed total order on keys. -/
inductive Reachable : AVLTree α → Prop
  | empty : Reachable AVLTree.leaf
  | ins (t : AVLTree α) (k : α) : Reachable t → Reachable (insertO t k).1
  | del (t : AVLTree α) (k : α) : Reachable t → Reachable (deleteO t k).1

end IntInstantiation

/-- Tree built by inserting the given integer keys, in list order, into the
empty structure. -/
def builtI (ks : List ℤ) : AVLTree ℤ :=
  ks.foldl (fun t k => (insertO t k).1) AVLTree.leaf

/-! ## Embedding of `plane_sweep.py`

Rationals stand in for Python floats (the source assumes no numerical
errors).  Crashes (TypeError when a comparison meets `None`, AssertionError
in the neighbor queries, AttributeError on a `None` node handle) are modeled
by `Option`, with `none` for a crashed run.  Segments are referred to by
their index in the fixed input list `Env`; Python object identity on
segments is index equality. -/

/-- Values of the `PointEventType` enumeration. -/
def UNDEFINED : ℕ := 0

/-- `PointEventType.START = 1`. -/
def START : ℕ := 1

/-- `PointEventType.INTERSECTION = 2`. -/
def INTERSECTION : ℕ := 2

/-- `PointEventType.END = 3`. -/
def ENDP : ℕ := 3

/-- A `Point` as used for events: coordinates, event type, and the owning
segment id(s).  `second_segment` is set only for intersection points. -/
structure Point where
  x : ℚ
  y : ℚ
  event_type : ℕ
  segment : Option ℕ
  second_segment : Option ℕ
deriving DecidableEq

/-- `Point.__lt__`: compare by x, then y, then event type. -/
def Point.ltb (a b : Point) : Bool :=
  if a.x = b.x then
    (if a.y = b.y then a.event_type < b.event_type else a.y < b.y)
  else a.x < b.x

/-- `Point.__gt__`: the mirror comparison. -/
def Point.gtb (a b : Point) : Bool :=
  if a.x = b.x then
    (if a.y = b.y then b.event_type < a.event_type else b.y < a.y)
  else b.x < a.x

/-- Python `==` on points is object identity; inside one event tree it
coincides with structural equality, because the tree never holds two
points with equal `(x, y, event_type)`. -/
def Point.beq (a b : Point) : Bool := decide (a = b)

/-- A `Segment` after constructor normalization: `start` is the endpoint
with the smaller x.  Fields `startx, starty, endx, endy` are the
coordinates of `self.start` and `self.end`. -/
structure Segment where
  startx : ℚ
  starty : ℚ
  endx : ℚ
  endy : ℚ
deriving DecidableEq

/-- `Segment.__init__`: order the two endpoints by x. -/
def mkSegment (x1 y1 x2 y2 : ℚ) : Segment :=
  if x1 ≤ x2 then ⟨x1, y1, x2, y2⟩ else ⟨x2, y2, x1, y1⟩

/-- `slope()`. -/
def Segment.slope (s : Segment) : ℚ := (s.endy - s.starty) / (s.endx - s.startx)

/-- `interceptor()`. -/
def Segment.interceptor (s : Segment) : ℚ := s.endy - s.endx * s.slope

/-- `value_at_x`: `None` when `x` lies outside the segment's x-range. -/
def Segment.value_at_x (s : Segment) (x : ℚ) : Option ℚ :=
  if x < s.startx ∨ x > s.endx then none else some (s.slope * x + s.interceptor)

/-- The fixed input segments; ids are list positions. -/
abbrev Env := List Segment

/-- `Segment.__lt__` under the comparator `Segment.x_coordinate_comparator =
cx`, on segment ids.  `none` is the TypeError Python raises when either
`value_at_x` is `None`. -/
def segLt (env : Env) (cx : ℚ) (i j : ℕ) : Option Bool := do
  let a ← env[i]?
  let b ← env[j]?
  let u ← a.value_at_x cx
  let v ← b.value_at_x cx
  pure (decide (u < v))

/-- `Segment.__gt__`, analogously. -/
def segGt (env : Env) (cx : ℚ) (i j : ℕ) : Option Bool := do
  let a ← env[i]?
  let b ← env[j]?
  let u ← a.value_at_x cx
  let v ← b.value_at_x cx
  pure (decide (v < u))

/-- `insert` of `avl_tree.py` run with the fallible segment comparison; the
status tree stores segment ids. -/
def insertS (env : Env) (cx : ℚ) : AVLTree ℕ → ℕ → Option (AVLTree ℕ × Bool)
  | .leaf, k => some (make_balanced (.node .leaf k .leaf), true)
  | .node l x r, k => do
    let b ← segLt env cx k x
    if b then
      let p ← insertS env cx l k
      pure (make_balanced (.node p.1 x r), p.2)
    else
      let b2 ← segGt env cx k x
      if b2 then
        let p ← insertS env cx r k
        pure (make_balanced (.node l x p.1), p.2)
      else pure (make_balanced (.node l x r), false)

/-- `delete` of `avl_tree.py` with the fallible segment comparison; `==` on
segments is id equality. -/
def deleteS (env : Env) (cx : ℚ) : AVLTree ℕ → ℕ → Option (AVLTree ℕ × Bool)
  | .leaf, _ => some (.leaf, false)
  | .node l x r, k =>
    if x = k then
      match l, r with
      | .leaf, .leaf => some (make_balanced .leaf, true)
      | .leaf, .node rl rk rr => some (make_balanced (.node rl rk rr), true)
      | .node ll lk lr, .leaf => some (make_balanced (.node ll lk lr), true)
      | .node ll lk lr, .node rl rk rr =>
        match AVLTree.min (.node rl rk rr) with
        | some m => do
          let p ← deleteS env cx (.node rl rk rr) m
          pure (make_balanced (.node (.node ll lk lr) m p.1), true)
        | none => some (make_balanced (.node l x r), true)
    else do
      let b ← segLt env cx k x
      if b then
        let p ← deleteS env cx l k
        pure (make_balanced (.node p.1 x r), p.2)
      else
        let b2 ← segGt env cx k x
        if b2 then
          let p ← deleteS env cx r k
          pure (make_balanced (.node l x p.1), p.2)
        else pure (make_balanced (.node l x r), false)

/-- `find` followed by `successor` for the sweep-line status.  The outer
`none` models a crash: either a failed comparison during the descent or the
`assert current is not None` of the callers firing on a missed find. -/
def succS (env : Env) (cx : ℚ) : AVLTree ℕ → ℕ → Option (Option ℕ)
  | .leaf, _ => none
  | .node l x r, k =>
    if x = k then some (AVLTree.min r)
    else do
      let b ← segLt env cx k x
      if b then succS env cx l k else succS env cx r k

/-- `find` followed by `predecessor`; `fromR` carries the parent key when
the last descent step went right. -/
def predS (env : Env) (cx : ℚ) : AVLTree ℕ → ℕ → Option ℕ → Option (Option ℕ)
  | .leaf, _, _ => none
  | .node l x r, k, fromR =>
    if x = k then
      match l with
      | .node ll lk lr => some (AVLTree.tmax (.node ll lk lr))
      | .leaf => some fromR
    else do
      let b ← segLt env cx k x
      if b then predS env cx l k none else predS env cx r k (some x)

/-- `find` returning the path (false = left, true = right) to the node of
the given segment id; inner `none` when absent, outer `none` on a crashed
comparison. -/
def findPathS (env : Env) (cx : ℚ) : AVLTree ℕ → ℕ → Option (Option (List Bool))
  | .leaf, _ => some none
  | .node l x r, k =>
    if x = k then some (some [])
    else do
      let b ← segLt env cx k x
      if b then
        let p ← findPathS env cx l k
        pure (p.map (List.cons false))
      else
        let p ← findPathS env cx r k
        pure (p.map (List.cons true))

/-- Key stored at a path. -/
def keyAt {α : Type} : AVLTree α → List Bool → Option α
  | .leaf, _ => none
  | .node _ x _, [] => some x
  | .node l _ _, false :: p => keyAt l p
  | .node _ _ r, true :: p => keyAt r p

/-- Replace the key stored at a path, leaving the structure unchanged. -/
def setKeyAt {α : Type} : AVLTree α → List Bool → α → AVLTree α
  | .leaf, _, _ => .leaf
  | .node l _ r, [], k => .node l k r
  | .node l x r, false :: p, k => .node (setKeyAt l p k) x r
  | .node l x r, true :: p, k => .node l x (setKeyAt r p k)

/-- The node structure with the keys erased. -/
def shape {α : Type} : AVLTree α → AVLTree Unit
  | .leaf => .leaf
  | .node l _ r => .node (shape l) () (shape r)

/-- `reach_intersection_of`: find both nodes and exchange their key
payloads.  A missed find crashes (`None.key`), as does a failed comparison
during either descent. -/
def reach_intersection_of (env : Env) (cx : ℚ) (t : AVLTree ℕ) (u lo : ℕ) :
    Option (AVLTree ℕ) := do
  let pu? ← findPathS env cx t u
  let pl? ← findPathS env cx t lo
  match pu?, pl? with
  | some pu, some pl => do
    let ku ← keyAt t pu
    let kl ← keyAt t pl
    pure (setKeyAt (setKeyAt t pu kl) pl ku)
  | _, _ => none

/-- `calculate_triangle_area`: half the 3x3 determinant, exactly. -/
def triArea (p q r : ℚ × ℚ) : ℚ :=
  (p.1 * (q.2 - r.2) - p.2 * (q.1 - r.1) + (q.1 * r.2 - r.1 * q.2)) / 2

/-- `calculate_intersection_point` on segment ids `fi` (first) and `se`
(second): choose the operand order by the smaller `start.y`, require the
four signed areas to be non-negative, reject equal slopes, and return the
intersection point of the supporting lines tagged with both ids. -/
def calcIntersection (env : Env) (fi se : ℕ) : Option Point :=
  match env[fi]?, env[se]? with
  | some first, some second =>
    let q : (ℚ × ℚ) × (ℚ × ℚ) × (ℚ × ℚ) × (ℚ × ℚ) :=
      if first.starty < second.starty then
        ((first.startx, first.starty), (first.endx, first.endy),
         (second.endx, second.endy), (second.startx, second.starty))
      else
        ((second.startx, second.starty), (second.endx, second.endy),
         (first.endx, first.endy), (first.startx, first.starty))
    let p1 := q.1
    let p2 := q.2.1
    let p3 := q.2.2.1
    let p4 := q.2.2.2
    if triArea p1 p3 p4 ≥ 0 ∧ triArea p2 p4 p3 ≥ 0 then
      if triArea p2 p1 p3 ≥ 0 ∧ triArea p2 p4 p1 ≥ 0 then
        if first.slope = second.slope then none
        else
          let xi := (second.interceptor - first.interceptor) /
            (first.slope - second.slope)
          some ⟨xi, first.slope * xi + first.interceptor, INTERSECTION,
            some fi, some se⟩
      else none
    else none
  | _, _ => none

/-- The event queue: an `AVLTree` of points plus the explicit size counter. -/
structure EventQueue where
  tree : AVLTree Point
  size : ℕ
deriving DecidableEq

/-- `insert_event`: tree insert; the counter grows only on success. -/
def EventQueue.insert_event (q : EventQueue) (e : Point) : EventQueue × Bool :=
  let p := AVLTree.insert Point.ltb Point.gtb q.tree e
  (⟨p.1, if p.2 then q.size + 1 else q.size⟩, p.2)

/-- `get_nearest_event`: peek the minimum. -/
def EventQueue.get_nearest_event (q : EventQueue) : Option Point :=
  AVLTree.min q.tree

/-- `remove_event`: tree delete; the counter shrinks only on success. -/
def EventQueue.remove_event (q : EventQueue) (e : Point) : EventQueue × Bool :=
  let p := AVLTree.delete Point.ltb Point.gtb Point.beq q.tree e
  (⟨p.1, if p.2 then q.size - 1 else q.size⟩, p.2)

/-- The sweep-line status: an `AVLTree` of segment ids plus its counter. -/
structure SweepLineStatus where
  tree : AVLTree ℕ
  size : ℕ
deriving DecidableEq

/-- The sweep driver state: event queue, status structure, the shared
`Segment.x_coordinate_comparator`, and the running intersection count. -/
structure SweepState where
  events : EventQueue
  status : SweepLineStatus
  comp : ℚ
  count : ℕ
deriving DecidableEq

/-- `if point and point.x >= current_x: events.insert_event(point)`. -/
def insEventIf (q : EventQueue) (p? : Option Point) (cx : ℚ) : EventQueue :=
  match p? with
  | some p => if p.x ≥ cx then (q.insert_event p).1 else q
  | none => q

/-- `intersection_with_upper`. -/
def intersection_with_upper (env : Env) (cx : ℚ) (t : AVLTree ℕ) (k : ℕ) :
    Option (Option Point) := do
  let up ← succS env cx t k
  match up with
  | none => pure none
  | some u => pure (calcIntersection env u k)

/-- `intersection_with_lower`. -/
def intersection_with_lower (env : Env) (cx : ℚ) (t : AVLTree ℕ) (k : ℕ) :
    Option (Option Point) := do
  let lo ← predS env cx t k none
  match lo with
  | none => pure none
  | some l2 => pure (calcIntersection env l2 k)

/-- Transition on a `START` event. -/
def stepStart (env : Env) (s : SweepState) (e : Point) : Option SweepState := do
  let si ← e.segment
  let p ← insertS env e.x s.status.tree si
  let st1 : SweepLineStatus :=
    ⟨p.1, if p.2 then s.status.size + 1 else s.status.size⟩
  let ui ← intersection_with_upper env e.x st1.tree si
  let q1 := insEventIf s.events ui e.x
  let li ← intersection_with_lower env e.x st1.tree si
  let q2 := insEventIf q1 li e.x
  pure { events := q2, status := st1, comp := e.x, count := s.count }

/-- Transition on an `END` event: capture both neighbors, remove the
segment, and if both neighbors exist test their mutual intersection. -/
def stepEnd (env : Env) (s : SweepState) (e : Point) : Option SweepState := do
  let si ← e.segment
  let above ← succS env e.x s.status.tree si
  let below ← predS env e.x s.status.tree si none
  let p ← deleteS env e.x s.status.tree si
  let st1 : SweepLineStatus :=
    ⟨p.1, if p.2 then s.status.size - 1 else s.status.size⟩
  let q1 := match above, below with
    | some a, some b => insEventIf s.events (calcIntersection env a b) e.x
    | _, _ => s.events
  pure { events := q1, status := st1, comp := e.x, count := s.count }

/-- Transition on an `INTERSECTION` event: count it, pick the new upper and
lower by slope, move the comparator to `event.x - 0.01` for the
pre-crossing neighbor queries, test the two candidate intersections
against the unperturbed event x, and swap the two segments' key payloads.
The comparator is left at `event.x - 0.01`. -/
def stepInter (env : Env) (s : SweepState) (e : Point) : Option SweepState := do
  let fi ← e.segment
  let se ← e.second_segment
  let fs ← env[fi]?
  let ss ← env[se]?
  let nu := if fs.slope > ss.slope then fi else se
  let nl := if fs.slope > ss.slope then se else fi
  let cx := e.x - 1/100
  let upper_to_check ← succS env cx s.status.tree nl
  let lower_to_check ← predS env cx s.status.tree nu none
  let q1 := match upper_to_check with
    | some u => insEventIf s.events (calcIntersection env u nu) e.x
    | none => s.events
  let q2 := match lower_to_check with
    | some l2 => insEventIf q1 (calcIntersection env l2 nl) e.x
    | none => q1
  let t1 ← reach_intersection_of env cx s.status.tree fi se
  pure ⟨q2, ⟨t1, s.status.size⟩, cx, s.count + 1⟩

/-- One iteration of the main event loop: pop the nearest event, set the
comparator to its x, dispatch on its type, then remove the event.  `none`
is a crash: the `assert` on `UNDEFINED`, or a crash inside a branch.  An
event type outside the enumeration falls through all branches, as in the
source. -/
def step (env : Env) (s : SweepState) : Option SweepState := do
  let e ← s.events.get_nearest_event
  if e.event_type = UNDEFINED then none
  else do
    let s1 ←
      if e.event_type = START then stepStart env s e
      else if e.event_type = ENDP then stepEnd env s e
      else if e.event_type = INTERSECTION then stepInter env s e
      else pure { s with comp := e.x }
    let q2 := (s1.events.remove_event e).1
    pure { s1 with events := q2 }

/-- Seeding: insert the start and end point of every segment. -/
def seedEvents (env : Env) : EventQueue :=
  (List.range env.length).foldl (fun q i =>
    match env[i]? with
    | some sg =>
      ((q.insert_event ⟨sg.startx, sg.starty, START, some i, none⟩).1.insert_event
        ⟨sg.endx, sg.endy, ENDP, some i, none⟩).1
    | none => q) ⟨.leaf, 0⟩

/-- Initial sweep state. -/
def initState (env : Env) : SweepState :=
  { events := seedEvents env, status := ⟨.leaf, 0⟩, comp := 0, count := 0 }

/-- The `while events.size > 0` loop, with fuel (a modeling artifact: the
source loop is unbounded; any fuel exceeding the iteration count gives the
source's behavior, and a crash is `none` regardless of fuel). -/
def sweepLoop (env : Env) : ℕ → SweepState → Option ℕ
  | 0, _ => none
  | n + 1, s =>
    if s.events.size > 0 then do
      let s2 ← step env s
      sweepLoop env n s2
    else some s.count

/-- `plane_sweep(segments)`: seed, loop, return the count; `none` on crash
(or fuel exhaustion, which does not occur for the runs proved below). -/
def plane_sweep (env : Env) : Option ℕ :=
  sweepLoop env ((env.length + 1) * (env.length + 1) * 4) (initState env)

/-- Iterate `step` n times. -/
def stepN (env : Env) : ℕ → SweepState → Option SweepState
  | 0, s => some s
  | n + 1, s => do stepN env n (← step env s)

/-- The horizontal segment `(0,0)-(5,0)` of the known-geometry test. -/
def segA : Segment := mkSegment 0 0 5 0

/-- The segment `(0,1)-(4,-1)` of the known-geometry test. -/
def segB : Segment := mkSegment 0 1 4 (-1)

/-- The known-geometry input in both of its orderings (a Python set is
iterated in an unspecified order when seeding the event queue). -/
def env1 : Env := [segA, segB]

/-- The reversed ordering of the known-geometry input. -/
def env1r : Env := [segB, segA]

/-- A status tree holding segment ids 0 and 1, with 1 above 0 (the order of
`env1` at `x = 199/100`): used as concrete input for the intersection-event
theorems. -/
def t8 : AVLTree ℕ := .node .leaf 0 (.node .leaf 1 .leaf)

/-- `t8` with the key payloads of its two nodes exchanged. -/
def t8s : AVLTree ℕ := .node .leaf 1 (.node .leaf 0 .leaf)

/-- The intersection event of `env1`: the two segments cross at `(2, 0)`. -/
def eW : Point := ⟨2, 0, INTERSECTION, some 0, some 1⟩

/-- A sweep state about to handle the intersection event `eW`: the event
queue holds exactly `eW`, the status holds both segments of `env1`. -/
def sW : SweepState := ⟨⟨.node .leaf eW .leaf, 1⟩, ⟨t8, 2⟩, 2, 0⟩

/-- A steep segment from `(1.995, 1)` to `(2.005, -1)`: it crosses `segA` at
`(2, 0)`, but its x-range does not contain `2 - 1/100`. -/
def segC : Segment := mkSegment (1995/1000) 1 (2005/1000) (-1)

/-- The input on which intersection handling moves the comparator outside a
crossing segment's x-range. -/
def env9 : Env := [segA, segC]

namespace AVLTree

variable {α : Type}

/-- Defining equation of `delete` at a non-empty tree, with the children left
abstract. -/
theorem delete_node_eq (lt gt beq : α → α → Bool)
    (l : AVLTree α) (x : α) (r : AVLTree α) (k : α) :
    delete lt gt beq (node l x r) k =
      if beq x k then
        match l, r with
        | leaf, leaf => (make_balanced leaf, true)
        | leaf, node rl rk rr => (make_balanced (node rl rk rr), true)
        | node ll lk lr, leaf => (make_balanced (node ll lk lr), true)
        | node ll lk lr, node rl rk rr =>
          match min (node rl rk rr) with
          | some m =>
            (make_balanced (node (node ll lk lr) m
              (delete lt gt beq (node rl rk rr) m).1), true)
          | none => (make_balanced (node l x r), true)
      else if lt k x then
        (make_balanced (node (delete lt gt beq l k).1 x r),
          (delete lt gt beq l k).2)
      else if gt k x then
        (make_balanced (node l x (delete lt gt beq r k).1),
          (delete lt gt beq r k).2)
      else (make_balanced (node l x r), false) := by
  cases l <;> cases r <;> rfl



@[simp] theorem height_leaf : height (leaf : AVLTree α) = -1 := rfl

@[simp] theorem height_node (l : AVLTree α) (x : α) (r : AVLTree α) :
    height (node l x r) = max (height l) (height r) + 1 := rfl

@[simp] theorem balance_leaf : balance (leaf : AVLTree α) = 0 := rfl

@[simp] theorem balance_node (l : AVLTree α) (x : α) (r : AVLTree α) :
    balance (node l x r) = height l - height r := rfl

theorem height_ge (t : AVLTree α) : -1 ≤ height t := by
  induction t with
  | leaf => simp
  | node l x r ihl ihr => simp; omega

theorem height_leaf_iff {t : AVLTree α} : height t = -1 ↔ t = leaf := by
  cases t with
  | leaf => simp
  | node l x r =>
    have h1 := height_ge l
    have h2 := height_ge r
    simp
    omega

@[simp] theorem AVLBal_leaf : AVLBal (leaf : AVLTree α) := trivial

theorem AVLBal_node {l r : AVLTree α} {x : α} :
    AVLBal (node l x r) ↔
      (height l - height r).natAbs ≤ 1 ∧ AVLBal l ∧ AVLBal r := Iff.rfl

theorem balance_loop_of_ok {t : AVLTree α} (n : Nat)
    (h : ¬(balance t < -1 ∨ 1 < balance t)) : balance_loop n t = t := by
  cases n with
  | zero => rfl
  | succ n => simp [balance_loop, h]

theorem make_balanced_of_ok {t : AVLTree α}
    (h : -1 ≤ balance t ∧ balance t ≤ 1) : make_balanced t = t :=
  balance_loop_of_ok _ (by omega)

theorem make_balanced_eq_step {t : AVLTree α}
    (h1 : balance t < -1 ∨ 1 < balance t)
    (h2 : -1 ≤ balance (balance_step t) ∧ balance (balance_step t) ≤ 1) :
    make_balanced t = balance_step t := by
  unfold make_balanced
  rw [balance_loop, if_pos h1]
  exact balance_loop_of_ok _ (by omega)

@[simp] theorem inorder_rotate_right (t : AVLTree α) :
    inorder (rotate_right t) = inorder t := by
  cases t with
  | leaf => rfl
  | node l x r =>
    cases l with
    | leaf => rfl
    | node ll lk lr => simp [rotate_right, inorder]

@[simp] theorem inorder_rotate_left (t : AVLTree α) :
    inorder (rotate_left t) = inorder t := by
  cases t with
  | leaf => rfl
  | node l x r =>
    cases r with
    | leaf => rfl
    | node rl rk rr => simp [rotate_left, inorder]

@[simp] theorem inorder_pre_left (t : AVLTree α) :
    inorder (pre_left t) = inorder t := by
  cases t with
  | leaf => rfl
  | node l x r =>
    simp only [pre_left, inorder]
    split <;> simp

@[simp] theorem inorder_pre_right (t : AVLTree α) :
    inorder (pre_right t) = inorder t := by
  cases t with
  | leaf => rfl
  | node l x r =>
    simp only [pre_right, inorder]
    split <;> simp

@[simp] theorem inorder_balance_step (t : AVLTree α) :
    inorder (balance_step t) = inorder t := by
  by_cases h1 : balance t > 1
  · by_cases h2 : balance (rotate_right (pre_left t)) < -1
    · simp [balance_step, h1, h2]
    · simp [balance_step, h1, h2]
  · by_cases h2 : balance t < -1
    · simp [balance_step, h1, h2]
    · simp [balance_step, h1, h2]

theorem inorder_balance_loop (n : Nat) (t : AVLTree α) :
    inorder (balance_loop n t) = inorder t := by
  induction n generalizing t with
  | zero => rfl
  | succ n ih =>
    rw [balance_loop]
    split
    · rw [ih, inorder_balance_step]
    · rfl

@[simp] theorem inorder_make_balanced (t : AVLTree α) :
    inorder (make_balanced t) = inorder t := inorder_balance_loop _ t

@[simp] theorem Mem_leaf {z : α} : Mem z (leaf : AVLTree α) ↔ False := Iff.rfl

@[simp] theorem Mem_node {z : α} {l r : AVLTree α} {x : α} :
    Mem z (node l x r) ↔ z = x ∨ Mem z l ∨ Mem z r := Iff.rfl

@[simp] theorem All_leaf {p : α → Prop} : All p (leaf : AVLTree α) := trivial

@[simp] theorem All_node {p : α → Prop} {l r : AVLTree α} {x : α} :
    All p (node l x r) ↔ p x ∧ All p l ∧ All p r := Iff.rfl

theorem mem_inorder {z : α} {t : AVLTree α} : z ∈ inorder t ↔ Mem z t := by
  induction t with
  | leaf => simp [inorder]
  | node l x r ihl ihr => simp [inorder, ihl, ihr]; tauto

theorem All_iff {p : α → Prop} {t : AVLTree α} :
    All p t ↔ ∀ z, Mem z t → p z := by
  induction t with
  | leaf => simp
  | node l x r ihl ihr =>
    simp only [All_node, Mem_node, ihl, ihr]
    constructor
    · rintro ⟨h1, h2, h3⟩ z (rfl | hz | hz)
      · exact h1
      · exact h2 z hz
      · exact h3 z hz
    · intro h
      exact ⟨h x (Or.inl rfl), fun z hz => h z (Or.inr (Or.inl hz)),
        fun z hz => h z (Or.inr (Or.inr hz))⟩

theorem rebalance_left {l r : AVLTree α} (x : α)
    (hl : AVLBal l) (hr : AVLBal r) (hh : height l = height r + 2) :
    AVLBal (balance_step (node l x r)) ∧
    (-1 ≤ balance (balance_step (node l x r)) ∧
      balance (balance_step (node l x r)) ≤ 1) ∧
    (height (balance_step (node l x r)) = height r + 2 ∨
     height (balance_step (node l x r)) = height r + 3) := by
  have hcge := height_ge r
  cases l with
  | leaf => simp at hh; omega
  | node ll lk lr =>
    rcases hl with ⟨hbal_l, hll_bal, hlr_bal⟩
    have hage := height_ge ll
    have hbge := height_ge lr
    simp only [height_node] at hh
    by_cases hbl : balance (node ll lk lr) < 0
    · -- case II: left child is right-heavy, double rotation
      simp only [balance_node] at hbl
      have hlr_h : height lr = height ll + 1 := by omega
      cases lr with
      | leaf => simp at hlr_h; omega
      | node lrl lrk lrr =>
        rcases hlr_bal with ⟨hbal_lr, hlrl_bal, hlrr_bal⟩
        have hd := height_ge lrl
        have he := height_ge lrr
        simp only [height_node] at hlr_h hh
        have hstep : balance_step (node (node ll lk (node lrl lrk lrr)) x r) =
            node (node ll lk lrl) lrk (node lrr x r) := by
          have c1 : balance (node (node ll lk (node lrl lrk lrr)) x r) > 1 := by
            simp; omega
          have c2 : balance (node ll lk (node lrl lrk lrr)) < 0 := by
            simp; simp at hbl; omega
          simp only [balance_step, pre_left, if_pos c1, if_pos c2, rotate_left,
            rotate_right]
          have c3 : ¬ balance (node (node ll lk lrl) lrk (node lrr x r)) < -1 := by
            simp; omega
          rw [if_neg c3]
        rw [hstep]
        refine ⟨⟨?_, ⟨?_, hll_bal, hlrl_bal⟩, ?_, hlrr_bal, hr⟩, ?_, ?_⟩ <;>
          (try simp only [height_node, balance_node]) <;> omega
    · -- case I: single right rotation
      simp only [balance_node] at hbl
      have hstep : balance_step (node (node ll lk lr) x r) =
          node ll lk (node lr x r) := by
        have c1 : balance (node (node ll lk lr) x r) > 1 := by
          simp; omega
        have c2 : ¬ balance (node ll lk lr) < 0 := by simp; omega
        simp only [balance_step, pre_left, if_pos c1, if_neg c2, rotate_right]
        have c3 : ¬ balance (node ll lk (node lr x r)) < -1 := by
          simp; omega
        rw [if_neg c3]
      rw [hstep]
      refine ⟨⟨?_, hll_bal, ?_, hlr_bal, hr⟩, ?_, ?_⟩ <;>
        (try simp only [height_node, balance_node]) <;> omega

theorem rebalance_right {l r : AVLTree α} (x : α)
    (hl : AVLBal l) (hr : AVLBal r) (hh : height r = height l + 2) :
    AVLBal (balance_step (node l x r)) ∧
    (-1 ≤ balance (balance_step (node l x r)) ∧
      balance (balance_step (node l x r)) ≤ 1) ∧
    (height (balance_step (node l x r)) = height l + 2 ∨
     height (balance_step (node l x r)) = height l + 3) := by
  have hcge := height_ge l
  cases r with
  | leaf => simp at hh; omega
  | node rl rk rr =>
    rcases hr with ⟨hbal_r, hrl_bal, hrr_bal⟩
    have hage := height_ge rl
    have hbge := height_ge rr
    simp only [height_node] at hh
    have hnofirst : ¬ balance (node l x (node rl rk rr)) > 1 := by
      simp; omega
    by_cases hbr : balance (node rl rk rr) > 0
    · -- case III: right child is left-heavy, double rotation
      simp only [balance_node] at hbr
      have hrl_h : height rl = height rr + 1 := by omega
      cases rl with
      | leaf => simp at hrl_h; omega
      | node rll rlk rlr =>
        rcases hrl_bal with ⟨hbal_rl, hrll_bal, hrlr_bal⟩
        have hd := height_ge rll
        have he := height_ge rlr
        simp only [height_node] at hrl_h hh
        have hstep : balance_step (node l x (node (node rll rlk rlr) rk rr)) =
            node (node l x rll) rlk (node rlr rk rr) := by
          have c1 : balance (node l x (node (node rll rlk rlr) rk rr)) < -1 := by
            simp; omega
          have c2 : balance (node (node rll rlk rlr) rk rr) > 0 := by
            simp; simp at hbr; omega
          simp only [balance_step, pre_right, if_neg hnofirst, if_pos c1,
            if_pos c2, rotate_right, rotate_left]
        rw [hstep]
        refine ⟨⟨?_, ⟨?_, hl, hrll_bal⟩, ?_, hrlr_bal, hrr_bal⟩, ?_, ?_⟩ <;>
          (try simp only [height_node, balance_node]) <;> omega
    · -- single left rotation
      simp only [balance_node] at hbr
      have hstep : balance_step (node l x (node rl rk rr)) =
          node (node l x rl) rk rr := by
        have c1 : balance (node l x (node rl rk rr)) < -1 := by
          simp; omega
        have c2 : ¬ balance (node rl rk rr) > 0 := by simp; omega
        simp only [balance_step, pre_right, if_neg hnofirst, if_pos c1,
          if_neg c2, rotate_left]
      rw [hstep]
      refine ⟨⟨?_, ⟨?_, hl, hrl_bal⟩, hrr_bal⟩, ?_, ?_⟩ <;>
        (try simp only [height_node, balance_node]) <;> omega

theorem insert_bal (lt gt : α → α → Bool) (k : α) {t : AVLTree α}
    (h : AVLBal t) :
    AVLBal (insert lt gt t k).1 ∧
    (height (insert lt gt t k).1 = height t ∨
     height (insert lt gt t k).1 = height t + 1) := by
  induction t with
  | leaf =>
    simp only [insert]
    have hok : -1 ≤ balance (node leaf k leaf) ∧ balance (node leaf k leaf) ≤ 1 := by
      simp
    rw [make_balanced_of_ok hok]
    exact ⟨⟨by simp, trivial, trivial⟩, by simp⟩
  | node l x r ihl ihr =>
    rcases h with ⟨hb, hl, hr⟩
    have hlge := height_ge l
    have hrge := height_ge r
    by_cases h1 : lt k x
    · obtain ⟨ihb, ihh⟩ := ihl hl
      have hlge' := height_ge (insert lt gt l k).1
      simp only [insert, h1, if_true]
      by_cases hub : height (insert lt gt l k).1 = height r + 2
      · have hs := rebalance_left x ihb hr hub
        rw [make_balanced_eq_step (Or.inr (by simp; omega)) hs.2.1]
        rcases hs.2.2 with h2 | h2 <;>
          exact ⟨hs.1, by simp only [height_node]; omega⟩
      · have hok : -1 ≤ balance (node (insert lt gt l k).1 x r) ∧
            balance (node (insert lt gt l k).1 x r) ≤ 1 := by simp; omega
        rw [make_balanced_of_ok hok]
        exact ⟨⟨by omega, ihb, hr⟩, by simp; omega⟩
    · by_cases h2 : gt k x
      · obtain ⟨ihb, ihh⟩ := ihr hr
        have hrge' := height_ge (insert lt gt r k).1
        simp only [insert, h1, h2, if_true, if_false, Bool.false_eq_true]
        by_cases hub : height (insert lt gt r k).1 = height l + 2
        · have hs := rebalance_right x hl ihb hub
          rw [make_balanced_eq_step (Or.inl (by simp; omega)) hs.2.1]
          rcases hs.2.2 with h3 | h3 <;>
            exact ⟨hs.1, by simp only [height_node]; omega⟩
        · have hok : -1 ≤ balance (node l x (insert lt gt r k).1) ∧
              balance (node l x (insert lt gt r k).1) ≤ 1 := by simp; omega
          rw [make_balanced_of_ok hok]
          exact ⟨⟨by omega, hl, ihb⟩, by simp; omega⟩
      · simp only [insert, h1, h2, if_false, Bool.false_eq_true]
        have hok : -1 ≤ balance (node l x r) ∧ balance (node l x r) ≤ 1 := by
          simp; omega
        rw [make_balanced_of_ok hok]
        exact ⟨⟨hb, hl, hr⟩, Or.inl rfl⟩

theorem inorder_eq_nil_iff {t : AVLTree α} : inorder t = [] ↔ t = leaf := by
  cases t with
  | leaf => simp [inorder]
  | node l x r => simp [inorder]

theorem min_eq_none_iff {t : AVLTree α} : min t = none ↔ t = leaf := by
  cases t with
  | leaf => simp [min]
  | node l x r =>
    simp only [iff_false, ne_eq, reduceCtorEq]
    induction l generalizing x r with
    | leaf => simp [min]
    | node ll lk lr ihl => rw [min]; exact ihl lk lr

theorem min_node_ex (l : AVLTree α) (x : α) (r : AVLTree α) :
    ∃ m, min (node l x r) = some m := by
  cases h : min (node l x r) with
  | none =>
    have h2 := min_eq_none_iff.mp h
    exact absurd h2 (by simp)
  | some m => exact ⟨m, rfl⟩

theorem delete_bal (lt gt beq : α → α → Bool) :
    ∀ (n : Nat) (t : AVLTree α) (k : α), size t ≤ n → AVLBal t →
    AVLBal (delete lt gt beq t k).1 ∧
    (height (delete lt gt beq t k).1 = height t ∨
     height (delete lt gt beq t k).1 = height t - 1) := by
  intro n
  induction n with
  | zero =>
    intro t k hs _
    cases t with
    | leaf => simp [delete]
    | node l x r => simp [size] at hs
  | succ n ih =>
    intro t k hs hbal
    cases t with
    | leaf => simp [delete]
    | node l x r =>
      rcases hbal with ⟨hb, hl, hr⟩
      have hlge := height_ge l
      have hrge := height_ge r
      simp only [size] at hs
      by_cases hbeq : beq x k
      · cases l with
        | leaf =>
          cases r with
          | leaf =>
            have hok : -1 ≤ balance (leaf : AVLTree α) ∧
                balance (leaf : AVLTree α) ≤ 1 := by simp
            simp only [delete, hbeq, if_true, make_balanced_of_ok hok]
            exact ⟨trivial, by simp⟩
          | node rl rk rr =>
            have hbr : (height rl - height rr).natAbs ≤ 1 := hr.1
            have hok : -1 ≤ balance (node rl rk rr) ∧
                balance (node rl rk rr) ≤ 1 := by
              simp only [balance_node]; omega
            simp only [delete, hbeq, if_true, make_balanced_of_ok hok]
            refine ⟨hr, ?_⟩
            have h1 := height_ge rl
            have h2 := height_ge rr
            simp only [height_node, height_leaf] at hb ⊢
            omega
        | node ll lk lr =>
          cases r with
          | leaf =>
            have hbl : (height ll - height lr).natAbs ≤ 1 := hl.1
            have hok : -1 ≤ balance (node ll lk lr) ∧
                balance (node ll lk lr) ≤ 1 := by
              simp only [balance_node]; omega
            simp only [delete, hbeq, if_true, make_balanced_of_ok hok]
            refine ⟨hl, ?_⟩
            have h1 := height_ge ll
            have h2 := height_ge lr
            simp only [height_node, height_leaf] at hb ⊢
            omega
          | node rl rk rr =>
            obtain ⟨m, hm⟩ := min_node_ex rl rk rr
            have hsz : size (node rl rk rr) ≤ n := by
              simp only [size] at hs ⊢; omega
            obtain ⟨ihb, ihh⟩ := ih (node rl rk rr) m hsz hr
            have hge' := height_ge (delete lt gt beq (node rl rk rr) m).1
            have hge2 := height_ge (node rl rk rr)
            have hge3 := height_ge (node ll lk lr)
            have htop : height (node (node ll lk lr) x (node rl rk rr)) =
                max (height (node ll lk lr)) (height (node rl rk rr)) + 1 := rfl
            simp only [delete, hbeq, if_true, hm]
            by_cases hub : height (node ll lk lr) =
                height (delete lt gt beq (node rl rk rr) m).1 + 2
            · have hs2 := rebalance_left m hl ihb hub
              have hcond : 1 < balance (node (node ll lk lr) m
                  (delete lt gt beq (node rl rk rr) m).1) := by
                simp only [balance_node]; omega
              rw [make_balanced_eq_step (Or.inr hcond) hs2.2.1]
              refine ⟨hs2.1, ?_⟩
              rw [htop]
              rcases hs2.2.2 with h2 | h2 <;> omega
            · have hok : -1 ≤ balance (node (node ll lk lr) m
                    (delete lt gt beq (node rl rk rr) m).1) ∧
                  balance (node (node ll lk lr) m
                    (delete lt gt beq (node rl rk rr) m).1) ≤ 1 := by
                simp only [balance_node]; omega
              rw [make_balanced_of_ok hok]
              refine ⟨⟨by omega, hl, ihb⟩, ?_⟩
              have hres : height (node (node ll lk lr) m
                    (delete lt gt beq (node rl rk rr) m).1) =
                  max (height (node ll lk lr))
                    (height (delete lt gt beq (node rl rk rr) m).1) + 1 := rfl
              rw [htop, hres]
              omega
      · have htop2 : height (node l x r) = max (height l) (height r) + 1 := rfl
        by_cases h1 : lt k x
        · have hsz : size l ≤ n := by omega
          obtain ⟨ihb, ihh⟩ := ih l k hsz hl
          have hge' := height_ge (delete lt gt beq l k).1
          rw [delete_node_eq]
          simp only [hbeq, h1, if_true, if_false, Bool.false_eq_true]
          by_cases hub : height r = height (delete lt gt beq l k).1 + 2
          · have hs2 := rebalance_right x ihb hr hub
            have hcond : balance (node (delete lt gt beq l k).1 x r) < -1 := by
              simp only [balance_node]; omega
            rw [make_balanced_eq_step (Or.inl hcond) hs2.2.1]
            refine ⟨hs2.1, ?_⟩
            rw [htop2]
            rcases hs2.2.2 with h2 | h2 <;> omega
          · have hok : -1 ≤ balance (node (delete lt gt beq l k).1 x r) ∧
                balance (node (delete lt gt beq l k).1 x r) ≤ 1 := by
              simp only [balance_node]; omega
            rw [make_balanced_of_ok hok]
            refine ⟨⟨by omega, ihb, hr⟩, ?_⟩
            rw [htop2]
            simp only [height_node]
            omega
        · by_cases h2 : gt k x
          · have hsz : size r ≤ n := by omega
            obtain ⟨ihb, ihh⟩ := ih r k hsz hr
            have hge' := height_ge (delete lt gt beq r k).1
            rw [delete_node_eq]
            simp only [hbeq, h1, h2, if_true, if_false, Bool.false_eq_true]
            by_cases hub : height l = height (delete lt gt beq r k).1 + 2
            · have hs2 := rebalance_left x hl ihb hub
              have hcond : 1 < balance (node l x (delete lt gt beq r k).1) := by
                simp only [balance_node]; omega
              rw [make_balanced_eq_step (Or.inr hcond) hs2.2.1]
              refine ⟨hs2.1, ?_⟩
              rw [htop2]
              rcases hs2.2.2 with h3 | h3 <;> omega
            · have hok : -1 ≤ balance (node l x (delete lt gt beq r k).1) ∧
                  balance (node l x (delete lt gt beq r k).1) ≤ 1 := by
                simp only [balance_node]; omega
              rw [make_balanced_of_ok hok]
              refine ⟨⟨by omega, hl, ihb⟩, ?_⟩
              rw [htop2]
              simp only [height_node]
              omega
          · rw [delete_node_eq]
            simp only [hbeq, h1, h2, if_false, Bool.false_eq_true]
            have hok : -1 ≤ balance (node l x r) ∧ balance (node l x r) ≤ 1 := by
              simp only [balance_node]; omega
            rw [make_balanced_of_ok hok]
            exact ⟨⟨hb, hl, hr⟩, Or.inl rfl⟩

theorem Mem_make_balanced {z : α} {t : AVLTree α} :
    Mem z (make_balanced t) ↔ Mem z t := by
  rw [← mem_inorder, ← mem_inorder, inorder_make_balanced]

theorem All_make_balanced {p : α → Prop} {t : AVLTree α} :
    All p (make_balanced t) ↔ All p t := by
  rw [All_iff, All_iff]
  constructor <;> intro h z hz
  · exact h z (Mem_make_balanced.mpr hz)
  · exact h z (Mem_make_balanced.mp hz)

theorem All_imp {p q : α → Prop} {t : AVLTree α} (h : All p t)
    (himp : ∀ a, p a → q a) : All q t := by
  rw [All_iff] at h ⊢
  exact fun z hz => himp z (h z hz)

theorem All_rotate_right {p : α → Prop} {t : AVLTree α} :
    All p (rotate_right t) ↔ All p t := by
  cases t with
  | leaf => simp [rotate_right]
  | node l x r =>
    cases l with
    | leaf => simp [rotate_right]
    | node ll lk lr => simp [rotate_right]; tauto

theorem All_rotate_left {p : α → Prop} {t : AVLTree α} :
    All p (rotate_left t) ↔ All p t := by
  cases t with
  | leaf => simp [rotate_left]
  | node l x r =>
    cases r with
    | leaf => simp [rotate_left]
    | node rl rk rr => simp [rotate_left]; tauto

section OrderLemmas

variable [LinearOrder α]

theorem BST_rotate_right {t : AVLTree α} (h : BST t) : BST (rotate_right t) := by
  cases t with
  | leaf => exact h
  | node l x r =>
    cases l with
    | leaf => exact h
    | node ll lk lr =>
      obtain ⟨⟨hlkx, hllx, hlrx⟩, hxr, ⟨hllk, hlkr, hbll, hblr⟩, hbr⟩ := h
      refine ⟨hllk, ⟨hlkx, hlkr, All_imp hxr fun a ha => lt_trans hlkx ha⟩,
        hbll, hlrx, hxr, hblr, hbr⟩

theorem BST_rotate_left {t : AVLTree α} (h : BST t) : BST (rotate_left t) := by
  cases t with
  | leaf => exact h
  | node l x r =>
    cases r with
    | leaf => exact h
    | node rl rk rr =>
      obtain ⟨hlx, ⟨hxrk, hxrl, hxrr⟩, hbl, ⟨hrlrk, hrkrr, hbrl, hbrr⟩⟩ := h
      refine ⟨⟨hxrk, All_imp hlx fun a ha => lt_trans ha hxrk, hrlrk⟩,
        hrkrr, ⟨hlx, hxrl, hbl, hbrl⟩, hbrr⟩

theorem BST_pre_left {t : AVLTree α} (h : BST t) : BST (pre_left t) := by
  cases t with
  | leaf => exact h
  | node l x r =>
    obtain ⟨hlx, hxr, hbl, hbr⟩ := h
    simp only [pre_left]
    split
    · exact ⟨All_rotate_left.mpr hlx, hxr, BST_rotate_left hbl, hbr⟩
    · exact ⟨hlx, hxr, hbl, hbr⟩

theorem BST_pre_right {t : AVLTree α} (h : BST t) : BST (pre_right t) := by
  cases t with
  | leaf => exact h
  | node l x r =>
    obtain ⟨hlx, hxr, hbl, hbr⟩ := h
    simp only [pre_right]
    split
    · exact ⟨hlx, All_rotate_right.mpr hxr, hbl, BST_rotate_right hbr⟩
    · exact ⟨hlx, hxr, hbl, hbr⟩

theorem BST_balance_step {t : AVLTree α} (h : BST t) : BST (balance_step t) := by
  unfold balance_step
  by_cases h1 : balance t > 1
  · simp only [h1, if_true]
    by_cases h2 : balance (rotate_right (pre_left t)) < -1
    · simp only [h2, if_true]
      exact BST_rotate_left (BST_pre_right (BST_rotate_right (BST_pre_left h)))
    · simp only [h2, if_false]
      exact BST_rotate_right (BST_pre_left h)
  · simp only [h1, if_false]
    by_cases h2 : balance t < -1
    · simp only [h2, if_true]
      exact BST_rotate_left (BST_pre_right h)
    · simp only [h2, if_false]
      exact h

theorem BST_balance_loop (n : Nat) {t : AVLTree α} (h : BST t) :
    BST (balance_loop n t) := by
  induction n generalizing t with
  | zero => exact h
  | succ n ih =>
    rw [balance_loop]
    split
    · exact ih (BST_balance_step h)
    · exact h

theorem BST_make_balanced {t : AVLTree α} (h : BST t) : BST (make_balanced t) :=
  BST_balance_loop _ h

end OrderLemmas

end AVLTree

section OrderedOps

open AVLTree

variable {α : Type} [LinearOrder α]

@[simp] theorem ltO_iff {a b : α} : ltO a b = true ↔ a < b := by
  simp [ltO]

@[simp] theorem gtO_iff {a b : α} : gtO a b = true ↔ b < a := by
  simp [gtO]

@[simp] theorem beqO_iff {a b : α} : beqO a b = true ↔ a = b := by
  simp [beqO]

theorem insertO_leaf (k : α) :
    insertO (AVLTree.leaf : AVLTree α) k =
      (make_balanced (node AVLTree.leaf k AVLTree.leaf), true) := rfl

theorem insertO_node (l : AVLTree α) (x k : α) (r : AVLTree α) :
    insertO (node l x r) k =
      if k < x then (make_balanced (node (insertO l k).1 x r), (insertO l k).2)
      else if x < k then
        (make_balanced (node l x (insertO r k).1), (insertO r k).2)
      else (make_balanced (node l x r), false) := by
  show AVLTree.insert ltO gtO (node l x r) k = _
  rw [AVLTree.insert]
  by_cases h1 : k < x
  · rw [if_pos (show ltO k x = true by simp [h1]), if_pos h1]
    rfl
  · rw [if_neg (show ¬ ltO k x = true by simp [h1]), if_neg h1]
    by_cases h2 : x < k
    · rw [if_pos (show gtO k x = true by simp [h2]), if_pos h2]
      rfl
    · rw [if_neg (show ¬ gtO k x = true by simp [h2]), if_neg h2]

theorem deleteO_leaf (k : α) :
    deleteO (AVLTree.leaf : AVLTree α) k = (AVLTree.leaf, false) := rfl

theorem deleteO_lt {l : AVLTree α} {x k : α} {r : AVLTree α} (h : k < x) :
    deleteO (node l x r) k =
      (make_balanced (node (deleteO l k).1 x r), (deleteO l k).2) := by
  have h1 : ¬ beqO x k = true := by simp; exact ne_of_gt h
  have h2 : ltO k x = true := by simp [h]
  show AVLTree.delete ltO gtO beqO (node l x r) k = _
  rw [delete_node_eq]
  simp only [h1, h2, if_true, if_false, Bool.false_eq_true]
  rfl

theorem deleteO_gt {l : AVLTree α} {x k : α} {r : AVLTree α} (h : x < k) :
    deleteO (node l x r) k =
      (make_balanced (node l x (deleteO r k).1), (deleteO r k).2) := by
  have h1 : ¬ beqO x k = true := by simp; exact ne_of_lt h
  have h2 : ¬ ltO k x = true := by simp; exact le_of_lt h
  have h3 : gtO k x = true := by simp [h]
  show AVLTree.delete ltO gtO beqO (node l x r) k = _
  rw [delete_node_eq]
  simp only [h1, h2, h3, if_true, if_false, Bool.false_eq_true]
  rfl

theorem deleteO_self_ll (x : α) :
    deleteO (node AVLTree.leaf x AVLTree.leaf) x =
      (make_balanced AVLTree.leaf, true) := by
  have h1 : beqO x x = true := by simp
  show AVLTree.delete ltO gtO beqO (node AVLTree.leaf x AVLTree.leaf) x = _
  simp only [AVLTree.delete, h1, if_true]

theorem deleteO_self_lr (x : α) (rl : AVLTree α) (rk : α) (rr : AVLTree α) :
    deleteO (node AVLTree.leaf x (node rl rk rr)) x =
      (make_balanced (node rl rk rr), true) := by
  have h1 : beqO x x = true := by simp
  show AVLTree.delete ltO gtO beqO _ x = _
  simp only [AVLTree.delete, h1, if_true]

theorem deleteO_self_rl (ll : AVLTree α) (lk : α) (lr : AVLTree α) (x : α) :
    deleteO (node (node ll lk lr) x AVLTree.leaf) x =
      (make_balanced (node ll lk lr), true) := by
  have h1 : beqO x x = true := by simp
  show AVLTree.delete ltO gtO beqO _ x = _
  simp only [AVLTree.delete, h1, if_true]

theorem deleteO_self_nn (ll : AVLTree α) (lk : α) (lr : AVLTree α) (x : α)
    (rl : AVLTree α) (rk : α) (rr : AVLTree α) {m : α}
    (hm : min (node rl rk rr) = some m) :
    deleteO (node (node ll lk lr) x (node rl rk rr)) x =
      (make_balanced (node (node ll lk lr) m (deleteO (node rl rk rr) m).1),
        true) := by
  have h1 : beqO x x = true := by simp
  show AVLTree.delete ltO gtO beqO _ x = _
  simp only [AVLTree.delete, h1, if_true, hm]
  rfl

theorem mem_insertO (t : AVLTree α) (k z : α) :
    Mem z (insertO t k).1 ↔ z = k ∨ Mem z t := by
  induction t with
  | leaf =>
    rw [insertO_leaf]
    simp [Mem_make_balanced]
  | node l x r ihl ihr =>
    rw [insertO_node]
    by_cases h1 : k < x
    · rw [if_pos h1]
      simp only [Mem_make_balanced, Mem_node, ihl]
      tauto
    · rw [if_neg h1]
      by_cases h2 : x < k
      · rw [if_pos h2]
        simp only [Mem_make_balanced, Mem_node, ihr]
        tauto
      · rw [if_neg h2]
        have hkx : k = x := le_antisymm (not_lt.mp h2) (not_lt.mp h1)
        subst hkx
        simp only [Mem_make_balanced, Mem_node]
        tauto

theorem BST_insertO {t : AVLTree α} (k : α) (h : BST t) : BST (insertO t k).1 := by
  induction t with
  | leaf =>
    rw [insertO_leaf]
    exact BST_make_balanced
      (show BST (node AVLTree.leaf k AVLTree.leaf) from
        ⟨trivial, trivial, trivial, trivial⟩)
  | node l x r ihl ihr =>
    obtain ⟨hlx, hxr, hbl, hbr⟩ := h
    rw [insertO_node]
    by_cases h1 : k < x
    · rw [if_pos h1]
      refine BST_make_balanced ⟨?_, hxr, ihl hbl, hbr⟩
      rw [All_iff]
      intro z hz
      rcases (mem_insertO l k z).mp hz with rfl | hz
      · exact h1
      · exact All_iff.mp hlx z hz
    · rw [if_neg h1]
      by_cases h2 : x < k
      · rw [if_pos h2]
        refine BST_make_balanced ⟨hlx, ?_, hbl, ihr hbr⟩
        rw [All_iff]
        intro z hz
        rcases (mem_insertO r k z).mp hz with rfl | hz
        · exact h2
        · exact All_iff.mp hxr z hz
      · rw [if_neg h2]
        exact BST_make_balanced ⟨hlx, hxr, hbl, hbr⟩

omit [LinearOrder α] in
theorem min_mem {t : AVLTree α} {m : α} (h : min t = some m) : Mem m t := by
  induction t with
  | leaf => simp [AVLTree.min] at h
  | node l x r ihl ihr =>
    cases l with
    | leaf =>
      rw [AVLTree.min] at h
      exact Or.inl (Option.some_injective _ h).symm
    | node ll lk lr =>
      rw [AVLTree.min] at h
      exact Or.inr (Or.inl (ihl h))

theorem min_le_all {t : AVLTree α} (hb : BST t) {m : α} (h : min t = some m) :
    All (fun z => m ≤ z) t := by
  induction t with
  | leaf => trivial
  | node l x r ihl ihr =>
    obtain ⟨hlx, hxr, hbl, hbr⟩ := hb
    cases l with
    | leaf =>
      rw [AVLTree.min] at h
      obtain rfl : m = x := (Option.some_injective _ h).symm
      exact ⟨le_refl _, trivial, All_imp hxr fun a ha => le_of_lt ha⟩
    | node ll lk lr =>
      rw [AVLTree.min] at h
      have hall := ihl hbl h
      have hmx : m < x := All_iff.mp hlx m (min_mem h)
      exact ⟨le_of_lt hmx, hall,
        All_imp hxr fun a ha => le_of_lt (lt_trans hmx ha)⟩

theorem delete_ordered :
    ∀ (n : Nat) (t : AVLTree α) (k : α), size t ≤ n → BST t →
    BST (deleteO t k).1 ∧
    ∀ z, Mem z (deleteO t k).1 ↔ Mem z t ∧ z ≠ k := by
  intro n
  induction n with
  | zero =>
    intro t k hs _
    cases t with
    | leaf => rw [deleteO_leaf]; exact ⟨trivial, by simp⟩
    | node l x r => simp [size] at hs
  | succ n ih =>
    intro t k hs hb
    cases t with
    | leaf => rw [deleteO_leaf]; exact ⟨trivial, by simp⟩
    | node l x r =>
      obtain ⟨hlx, hxr, hbl, hbr⟩ := hb
      simp only [size] at hs
      rcases lt_trichotomy k x with h1 | h1 | h1
      · -- k < x: delete in the left subtree
        obtain ⟨ihb, ihm⟩ := ih l k (by omega) hbl
        rw [deleteO_lt h1]
        constructor
        · refine BST_make_balanced ⟨?_, hxr, ihb, hbr⟩
          rw [All_iff]
          intro z hz
          exact All_iff.mp hlx z ((ihm z).mp hz).1
        · intro z
          rw [Mem_make_balanced, Mem_node, ihm z]
          have hxk : x ≠ k := ne_of_gt h1
          have hrk : ∀ w, Mem w r → w ≠ k := fun w hw =>
            ne_of_gt (lt_trans h1 (All_iff.mp hxr w hw))
          constructor
          · rintro (rfl | ⟨hz, hzk⟩ | hz)
            · exact ⟨Or.inl rfl, hxk⟩
            · exact ⟨Or.inr (Or.inl hz), hzk⟩
            · exact ⟨Or.inr (Or.inr hz), hrk z hz⟩
          · rintro ⟨rfl | hz | hz, hzk⟩
            · exact Or.inl rfl
            · exact Or.inr (Or.inl ⟨hz, hzk⟩)
            · exact Or.inr (Or.inr hz)
      · -- k = x: the node itself is deleted
        subst h1
        cases l with
        | leaf =>
          cases r with
          | leaf =>
            rw [deleteO_self_ll]
            refine ⟨BST_make_balanced
              (show BST (AVLTree.leaf : AVLTree α) from trivial), fun z => ?_⟩
            rw [Mem_make_balanced]
            simp
          | node rl rk rr =>
            rw [deleteO_self_lr]
            refine ⟨BST_make_balanced hbr, fun z => ?_⟩
            rw [Mem_make_balanced, Mem_node]
            have hrk : ∀ w, Mem w (node rl rk rr) → w ≠ k := fun w hw =>
              ne_of_gt (All_iff.mp hxr w hw)
            constructor
            · intro hz
              exact ⟨Or.inr (Or.inr hz), hrk z hz⟩
            · rintro ⟨rfl | hz | hz, hzk⟩
              · exact absurd rfl hzk
              · exact absurd hz id
              · exact hz
        | node ll lk lr =>
          cases r with
          | leaf =>
            rw [deleteO_self_rl]
            refine ⟨BST_make_balanced hbl, fun z => ?_⟩
            rw [Mem_make_balanced, Mem_node]
            have hlk : ∀ w, Mem w (node ll lk lr) → w ≠ k := fun w hw =>
              ne_of_lt (All_iff.mp hlx w hw)
            constructor
            · intro hz
              exact ⟨Or.inr (Or.inl hz), hlk z hz⟩
            · rintro ⟨rfl | hz | hz, hzk⟩
              · exact absurd rfl hzk
              · exact hz
              · exact absurd hz id
          | node rl rk rr =>
            obtain ⟨m, hm⟩ := min_node_ex rl rk rr
            obtain ⟨ihb, ihm⟩ := ih (node rl rk rr) m
              (by simp only [size] at hs ⊢; omega) hbr
            rw [deleteO_self_nn _ _ _ _ _ _ _ hm]
            have hmm : Mem m (node rl rk rr) := min_mem hm
            have hxm : k < m := All_iff.mp hxr m hmm
            have hmle := min_le_all hbr hm
            constructor
            · refine BST_make_balanced
                ⟨All_imp hlx (fun a ha => lt_trans ha hxm), ?_, hbl, ihb⟩
              rw [All_iff]
              intro z hz
              obtain ⟨hzr, hzm⟩ := (ihm z).mp hz
              exact lt_of_le_of_ne (All_iff.mp hmle z hzr) (Ne.symm hzm)
            · intro z
              rw [Mem_make_balanced, Mem_node, ihm z]
              have hl_ne : ∀ w, Mem w (node ll lk lr) → w ≠ k := fun w hw =>
                ne_of_lt (All_iff.mp hlx w hw)
              have hr_ne : ∀ w, Mem w (node rl rk rr) → w ≠ k := fun w hw =>
                ne_of_gt (All_iff.mp hxr w hw)
              constructor
              · rintro (rfl | hz | ⟨hz, hzm⟩)
                · exact ⟨Or.inr (Or.inr hmm), hr_ne z hmm⟩
                · exact ⟨Or.inr (Or.inl hz), hl_ne z hz⟩
                · exact ⟨Or.inr (Or.inr hz), hr_ne z hz⟩
              · rintro ⟨rfl | hz | hz, hzk⟩
                · exact absurd rfl hzk
                · exact Or.inr (Or.inl hz)
                · by_cases hzm : z = m
                  · exact Or.inl hzm
                  · exact Or.inr (Or.inr ⟨hz, hzm⟩)
      · -- x < k: delete in the right subtree
        obtain ⟨ihb, ihm⟩ := ih r k (by omega) hbr
        rw [deleteO_gt h1]
        constructor
        · refine BST_make_balanced ⟨hlx, ?_, hbl, ihb⟩
          rw [All_iff]
          intro z hz
          exact All_iff.mp hxr z ((ihm z).mp hz).1
        · intro z
          rw [Mem_make_balanced, Mem_node, ihm z]
          have hxk : x ≠ k := ne_of_lt h1
          have hlk : ∀ w, Mem w l → w ≠ k := fun w hw =>
            ne_of_lt (lt_trans (All_iff.mp hlx w hw) h1)
          constructor
          · rintro (rfl | hz | ⟨hz, hzk⟩)
            · exact ⟨Or.inl rfl, hxk⟩
            · exact ⟨Or.inr (Or.inl hz), hlk z hz⟩
            · exact ⟨Or.inr (Or.inr hz), hzk⟩
          · rintro ⟨rfl | hz | hz, hzk⟩
            · exact Or.inl rfl
            · exact Or.inr (Or.inl hz)
            · exact Or.inr (Or.inr ⟨hz, hzk⟩)

theorem BST_pairwise {t : AVLTree α} (h : BST t) :
    List.Pairwise (· < ·) (inorder t) := by
  induction t with
  | leaf => simp [inorder]
  | node l x r ihl ihr =>
    obtain ⟨hlx, hxr, hbl, hbr⟩ := h
    rw [inorder, List.pairwise_append]
    refine ⟨ihl hbl, ?_, ?_⟩
    · rw [List.pairwise_cons]
      exact ⟨fun z hz => All_iff.mp hxr z (mem_inorder.mp hz), ihr hbr⟩
    · intro a ha b hb
      have halt : a < x := All_iff.mp hlx a (mem_inorder.mp ha)
      rcases List.mem_cons.mp hb with rfl | hb
      · exact halt
      · exact lt_trans halt (All_iff.mp hxr b (mem_inorder.mp hb))

theorem reachable_BST {t : AVLTree α} (h : Reachable t) : BST t := by
  induction h with
  | empty => trivial
  | ins t k _ ih => exact BST_insertO k ih
  | del t k _ ih => exact (delete_ordered (size t) t k le_rfl ih).1

theorem reachable_mem_delete {t : AVLTree α} (h : BST t) (k z : α) :
    Mem z (deleteO t k).1 ↔ Mem z t ∧ z ≠ k :=
  (delete_ordered (size t) t k le_rfl h).2 z

omit [LinearOrder α] in
theorem insert_duplicate {lt gt : α → α → Bool} {t : AVLTree α} {k : α}
    (hbal : AVLBal t) (hc : containsG lt gt t k = true) :
    AVLTree.insert lt gt t k = (t, false) := by
  induction t with
  | leaf => simp [containsG] at hc
  | node l x r ihl ihr =>
    obtain ⟨hb, hbl, hbr⟩ := hbal
    rw [AVLTree.insert]
    rw [containsG] at hc
    have hok : -1 ≤ balance (node l x r) ∧ balance (node l x r) ≤ 1 := by
      simp only [balance_node]; omega
    by_cases h1 : lt k x = true
    · rw [if_pos h1]
      rw [if_pos h1] at hc
      rw [ihl hbl hc]
      show (make_balanced (node l x r), false) = (node l x r, false)
      rw [make_balanced_of_ok hok]
    · rw [if_neg h1]
      rw [if_neg h1] at hc
      by_cases h2 : gt k x = true
      · rw [if_pos h2]
        rw [if_pos h2] at hc
        rw [ihr hbr hc]
        show (make_balanced (node l x r), false) = (node l x r, false)
        rw [make_balanced_of_ok hok]
      · rw [if_neg h2, make_balanced_of_ok hok]

theorem foldl_insert_mem (ks : List α) (t : AVLTree α) (hb : BST t) :
    BST (ks.foldl (fun t k => (insertO t k).1) t) ∧
    ∀ z, Mem z (ks.foldl (fun t k => (insertO t k).1) t) ↔ z ∈ ks ∨ Mem z t := by
  induction ks generalizing t with
  | nil => exact ⟨hb, by simp⟩
  | cons k ks ih =>
    obtain ⟨ih1, ih2⟩ := ih (insertO t k).1 (BST_insertO k hb)
    refine ⟨ih1, fun z => ?_⟩
    rw [List.foldl_cons, ih2 z, mem_insertO]
    simp only [List.mem_cons]
    tauto

theorem foldl_delete_mem (ds : List α) (t : AVLTree α) (hb : BST t) :
    BST (ds.foldl (fun t k => (deleteO t k).1) t) ∧
    ∀ z, Mem z (ds.foldl (fun t k => (deleteO t k).1) t) ↔
      Mem z t ∧ z ∉ ds := by
  induction ds generalizing t with
  | nil => exact ⟨hb, by simp⟩
  | cons d ds ih =>
    obtain ⟨hd1, hd2⟩ := delete_ordered (size t) t d le_rfl hb
    obtain ⟨ih1, ih2⟩ := ih (deleteO t d).1 hd1
    refine ⟨ih1, fun z => ?_⟩
    rw [List.foldl_cons, ih2 z, hd2 z]
    simp only [List.mem_cons]
    tauto

end OrderedOps

/-- C2: for every state of the balanced ordered structure reachable from the
empty tree by any finite sequence of insert and delete operations (under a
fixed total order on keys), every node satisfies
`|height(left subtree) - height(right subtree)| <= 1`. -/
theorem claim_C2_balance_invariant {α : Type} [LinearOrder α] {t : AVLTree α}
    (h : Reachable t) : AVLBal t := by
  induction h with
  | empty => trivial
  | ins t k _ ih => exact (AVLTree.insert_bal ltO gtO k ih).1
  | del t k _ ih =>
    exact (AVLTree.delete_bal ltO gtO beqO (AVLTree.size t) t k le_rfl ih).1

/-- Witness for C2 at a concrete input: the tree reached by inserting 3 and
then deleting 1 over the integers is balance-correct. -/
theorem claim_C2_balance_invariant_witness :
    AVLBal (deleteO (insertO AVLTree.leaf (3 : ℤ)).1 1).1 :=
  claim_C2_balance_invariant
    (Reachable.del _ 1 (Reachable.ins _ 3 Reachable.empty))

/-- C3: for every state of the balanced ordered structure reachable from the
empty tree by any finite sequence of insert and delete operations (under a
fixed total order on keys), the in-order traversal yields the keys in
strictly increasing comparator order. -/
theorem claim_C3_order_invariant {α : Type} [LinearOrder α] {t : AVLTree α}
    (h : Reachable t) : List.Chain' (· < ·) (AVLTree.inorder t) :=
  (BST_pairwise (reachable_BST h)).chain'

/-- Witness for C3 at a concrete input: inserting 2, 1, 3 and deleting 2 over
the integers yields a strictly increasing in-order traversal. -/
theorem claim_C3_order_invariant_witness :
    List.Chain' (· < ·) (AVLTree.inorder
      (deleteO (insertO (insertO (insertO AVLTree.leaf (2 : ℤ)).1 1).1 3).1 2).1) :=
  claim_C3_order_invariant
    (Reachable.del _ 2 (Reachable.ins _ 3 (Reachable.ins _ 1
      (Reachable.ins _ 2 Reachable.empty))))

/-- C7: inserting N pairwise-distinct keys into the empty structure and then
deleting all N of them, in any order, leaves a structure whose `min()` is
absent. -/
theorem claim_C7_roundtrip {α : Type} [LinearOrder α] (ks ds : List α)
    (_hnd : ks.Nodup) (hperm : ds.Perm ks) :
    AVLTree.min (ds.foldl (fun t k => (deleteO t k).1)
      (ks.foldl (fun t k => (insertO t k).1) AVLTree.leaf)) = none := by
  obtain ⟨hb1, hm1⟩ := foldl_insert_mem ks AVLTree.leaf trivial
  obtain ⟨hb2, hm2⟩ := foldl_delete_mem ds _ hb1
  have hempty : ∀ z, ¬ Mem z (ds.foldl (fun t k => (deleteO t k).1)
      (ks.foldl (fun t k => (insertO t k).1) AVLTree.leaf)) := by
    intro z hz
    obtain ⟨hz1, hz2⟩ := (hm2 z).mp hz
    rcases (hm1 z).mp hz1 with hz3 | hz3
    · exact hz2 (hperm.mem_iff.mpr hz3)
    · exact hz3
  rw [AVLTree.min_eq_none_iff]
  cases htree : ds.foldl (fun t k => (deleteO t k).1)
      (ks.foldl (fun t k => (insertO t k).1) AVLTree.leaf) with
  | leaf => rfl
  | node l x r =>
    exact absurd (htree ▸ (Or.inl rfl : Mem x (AVLTree.node l x r)))
      (hempty x)

/-- Counterexample to C5: the state reached by inserting the keys in the
order 3, 1, 7, 5 holds exactly {1,3,5,7}, yet `predecessor(find(5))` and
`successor(find(5))` are both absent (the source's `predecessor` only
inspects the left subtree and a right-child parent, and its `successor` only
the right subtree; key 5 sits as the left child of 7 with empty subtrees).
So neither yields the claimed keys 3 and 7. -/
theorem claim_C5_counterexample :
    AVLTree.inorder (builtI [3, 1, 7, 5]) = [1, 3, 5, 7] ∧
    AVLTree.predOfKey ltO beqO (builtI [3, 1, 7, 5]) 5 = some none ∧
    AVLTree.predOfKey ltO beqO (builtI [3, 1, 7, 5]) 5 ≠ some (some 3) ∧
    AVLTree.succOfKey ltO beqO (builtI [3, 1, 7, 5]) 5 = some none ∧
    AVLTree.succOfKey ltO beqO (builtI [3, 1, 7, 5]) 5 ≠ some (some 7) := by
  decide

/-- C5 amended: over all 24 insertion orders of {1,3,5,7},
`predecessor(find(1))` and `successor(find(7))` are absent; and in the state
reached by inserting in increasing order 1, 3, 5, 7, `predecessor(find(5))`
yields 3 and `successor(find(5))` yields 7 — but the latter two do not hold
for every insertion order (see the counterexample). -/
theorem claim_C5_neighbors :
    ((([[1, 3, 5, 7],
      [1, 3, 7, 5],
      [1, 5, 3, 7],
      [1, 5, 7, 3],
      [1, 7, 3, 5],
      [1, 7, 5, 3],
      [3, 1, 5, 7],
      [3, 1, 7, 5],
      [3, 5, 1, 7],
      [3, 5, 7, 1],
      [3, 7, 1, 5],
      [3, 7, 5, 1],
      [5, 1, 3, 7],
      [5, 1, 7, 3],
      [5, 3, 1, 7],
      [5, 3, 7, 1],
      [5, 7, 1, 3],
      [5, 7, 3, 1],
      [7, 1, 3, 5],
      [7, 1, 5, 3],
      [7, 3, 1, 5],
      [7, 3, 5, 1],
      [7, 5, 1, 3],
      [7, 5, 3, 1]] : List (List ℤ))).all fun p =>
      decide (AVLTree.predOfKey ltO beqO (builtI p) 1 = some none) &&
      decide (AVLTree.succOfKey ltO beqO (builtI p) 7 = some none)) = true ∧
    AVLTree.predOfKey ltO beqO (builtI [1, 3, 5, 7]) 5 = some (some 3) ∧
    AVLTree.succOfKey ltO beqO (builtI [1, 3, 5, 7]) 5 = some (some 7) := by
  decide

/-- Witness for C7 at a concrete input: keys 1, 2 inserted then deleted in
the opposite order over the integers. -/
theorem claim_C7_roundtrip_witness :
    AVLTree.min ((([2, 1] : List ℤ)).foldl (fun t k => (deleteO t k).1)
      ((([1, 2] : List ℤ)).foldl (fun t k => (insertO t k).1)
        AVLTree.leaf)) = none :=
  claim_C7_roundtrip [1, 2] [2, 1] (by decide) (by decide)


/-- C6: for every balanced tree state, inserting a key that compares equal
to one already present (neither `<` nor `>` holds against some key on the
descent path) returns false and leaves the tree completely unchanged; and
`insert_event` on the event queue returns false and leaves both the tree
and the size counter unchanged when a point with identical
`(x, y, event_type)` is already held. -/
theorem claim_C6_duplicate_insert :
    (∀ (α : Type) (lt gt : α → α → Bool) (t : AVLTree α) (k : α),
      AVLBal t → containsG lt gt t k = true →
      AVLTree.insert lt gt t k = (t, false)) ∧
    (∀ (q : EventQueue) (e : Point), AVLBal q.tree →
      containsG Point.ltb Point.gtb q.tree e = true →
      q.insert_event e = (q, false)) := by
  constructor
  · intro α lt gt t k hb hc
    exact insert_duplicate hb hc
  · intro q e hb hc
    unfold EventQueue.insert_event
    rw [insert_duplicate hb hc]
    rfl

/-- Witness for C6 at concrete inputs: re-inserting 1 into the integer tree
{1, 2}, and re-inserting a seeded start point into an event queue holding
it. -/
theorem claim_C6_duplicate_insert_witness :
    (AVLBal (builtI [1, 2]) ∧ containsG ltO gtO (builtI [1, 2]) 1 = true ∧
      AVLTree.insert ltO gtO (builtI [1, 2]) 1 = (builtI [1, 2], false)) ∧
    (AVLBal (seedEvents [mkSegment 0 0 5 0]).tree ∧
      containsG Point.ltb Point.gtb (seedEvents [mkSegment 0 0 5 0]).tree
        ⟨0, 0, START, some 0, none⟩ = true ∧
      (seedEvents [mkSegment 0 0 5 0]).insert_event ⟨0, 0, START, some 0, none⟩ =
        (seedEvents [mkSegment 0 0 5 0], false)) :=
  ⟨⟨by decide, by decide,
      claim_C6_duplicate_insert.1 ℤ ltO gtO (builtI [1, 2]) 1
        (by decide) (by decide)⟩,
    ⟨by decide, by decide,
      claim_C6_duplicate_insert.2 (seedEvents [mkSegment 0 0 5 0])
        ⟨0, 0, START, some 0, none⟩ (by decide) (by decide)⟩⟩

/-- C10: `plane_sweep` on the empty segment set returns 0; the seeded event
queue is still the empty tree with size counter 0 and the status is the
empty tree, so the loop body (and with it every event-queue or status
operation) never runs. -/
theorem claim_C10_empty_input :
    plane_sweep ([] : Env) = some 0 ∧
    (initState ([] : Env)).events.tree = AVLTree.leaf ∧
    (initState ([] : Env)).events.size = 0 ∧
    (initState ([] : Env)).status.tree = AVLTree.leaf := by
  decide

/-- C1: on the two segments `(0,0)-(5,0)` and `(0,1)-(4,-1)`, which cross at
`(2, 0)`, `plane_sweep` returns 1 under either seeding order. -/
theorem claim_C1_known_geometry :
    plane_sweep env1 = some 1 ∧ plane_sweep env1r = some 1 := by
  with_unfolding_all decide

/-- Any successful `stepInter` leaves the comparator at `event.x - 1/100`:
the source sets `Segment.x_coordinate_comparator = point.x - 0.01` before
the neighbor queries and never writes it again in that branch. -/
theorem stepInter_comp (env : Env) (s : SweepState) (e : Point)
    (s1 : SweepState) (h : stepInter env s e = some s1) :
    s1.comp = e.x - 1/100 := by
  simp only [stepInter, Option.bind_eq_bind, Option.bind_eq_some,
    Option.pure_def, Option.some.injEq] at h
  obtain ⟨fi, hfi, se, hse, fs, hfs, ss, hss, u, hu, lo, hlo, t1, ht1, h⟩ := h
  rw [← h]

/-- Counterexample to C4: in the known-geometry run `env1`, the third event
is the intersection event at `x = 2`; when its iteration completes the
comparator holds `199/100 = 2 - 1/100`, not the event x, and the loop does
continue (two events remain).  The comparator is re-set only at the top of
the next iteration. -/
theorem claim_C4_counterexample :
    ((stepN env1 2 (initState env1)).bind (fun s =>
      s.events.get_nearest_event.map (fun e => (e.event_type, e.x))))
      = some (INTERSECTION, 2) ∧
    (stepN env1 3 (initState env1)).map SweepState.comp = some (199/100) ∧
    (stepN env1 3 (initState env1)).map (fun s => s.events.size) = some 2 ∧
    ((199 : ℚ)/100 ≠ 2) := by
  with_unfolding_all decide

/-- C4 (amended): whenever an iteration of the event loop handles an
`INTERSECTION` event and completes, the shared current-x comparator equals
the event's x minus `1/100` — the value set for the pre-crossing neighbor
queries — not the event's x.  It is re-set to an event x only at the top of
the next iteration, before any comparator read. -/
theorem claim_C4_amended (env : Env) (s : SweepState) (e : Point)
    (s2 : SweepState) (he : s.events.get_nearest_event = some e)
    (ht : e.event_type = INTERSECTION) (hs : step env s = some s2) :
    s2.comp = e.x - 1/100 := by
  have h0 : e.event_type ≠ UNDEFINED := by rw [ht]; decide
  have h1 : e.event_type ≠ START := by rw [ht]; decide
  have h3 : e.event_type ≠ ENDP := by rw [ht]; decide
  simp only [step, he, Option.bind_eq_bind, Option.some_bind, if_neg h0,
    if_neg h1, if_neg h3, if_pos ht, Option.pure_def] at hs
  rw [Option.bind_eq_some] at hs
  obtain ⟨s1, hs1, h2⟩ := hs
  rw [← Option.some.inj h2]
  exact stepInter_comp env s e s1 hs1

/-- Witness for the amended C4 at a concrete input: the state `sW` is about
to handle the intersection event `eW` of `env1`; the iteration succeeds and
leaves the comparator at `199/100 = eW.x - 1/100`. -/
theorem claim_C4_amended_witness :
    sW.events.get_nearest_event = some eW ∧ eW.event_type = INTERSECTION ∧
    step env1 sW = some ⟨⟨.leaf, 0⟩, ⟨t8s, 2⟩, 199/100, 1⟩ ∧
    (⟨⟨.leaf, 0⟩, ⟨t8s, 2⟩, 199/100, 1⟩ : SweepState).comp = eW.x - 1/100 :=
  ⟨by with_unfolding_all decide, rfl, by with_unfolding_all decide,
    claim_C4_amended env1 sW eW ⟨⟨.leaf, 0⟩, ⟨t8s, 2⟩, 199/100, 1⟩
      (by with_unfolding_all decide) rfl (by with_unfolding_all decide)⟩

/-- A successful `find` in the status tree returns a path that ends at a
node holding the searched key. -/
theorem findPathS_keyAt (env : Env) (cx : ℚ) :
    ∀ (t : AVLTree ℕ) (k : ℕ) (p : List Bool),
      findPathS env cx t k = some (some p) → keyAt t p = some k := by
  intro t
  induction t with
  | leaf =>
    intro k p h
    simp [findPathS] at h
  | node l x r ihl ihr =>
    intro k p h
    by_cases hx : x = k
    · subst hx
      simp only [findPathS, if_pos rfl, if_true, eq_self_iff_true,
        Option.some.injEq] at h
      subst h
      rfl
    · simp only [findPathS, if_neg hx, Option.bind_eq_bind, Option.bind_eq_some,
        Option.pure_def, Option.some.injEq] at h
      obtain ⟨b, hb, h⟩ := h
      cases b with
      | false =>
        rw [if_neg (by decide)] at h
        simp only [Option.bind_eq_some, Option.some.injEq] at h
        obtain ⟨q, hq, h⟩ := h
        cases q with
        | none => simp at h
        | some q2 =>
          simp only [Option.map_some', Option.some.injEq] at h
          subst h
          exact ihr k q2 hq
      | true =>
        rw [if_pos rfl] at h
        simp only [Option.bind_eq_some, Option.some.injEq] at h
        obtain ⟨q, hq, h⟩ := h
        cases q with
        | none => simp at h
        | some q2 =>
          simp only [Option.map_some', Option.some.injEq] at h
          subst h
          exact ihl k q2 hq

/-- Writing a key at a valid path is visible at that path. -/
theorem keyAt_setKeyAt_same {α : Type} :
    ∀ (t : AVLTree α) (p : List Bool) (x k : α),
      keyAt t p = some x → keyAt (setKeyAt t p k) p = some k := by
  intro t
  induction t with
  | leaf =>
    intro p x k h
    simp [keyAt] at h
  | node l y r ihl ihr =>
    intro p x k h
    cases p with
    | nil => rfl
    | cons b q =>
      cases b with
      | false => exact ihl q x k h
      | true => exact ihr q x k h

/-- Writing a key at one path leaves the key at every other path unchanged. -/
theorem keyAt_setKeyAt_other {α : Type} :
    ∀ (t : AVLTree α) (p q : List Bool) (k : α), q ≠ p →
      keyAt (setKeyAt t p k) q = keyAt t q := by
  intro t
  induction t with
  | leaf => intro p q k _; rfl
  | node l y r ihl ihr =>
    intro p q k hne
    cases p with
    | nil =>
      cases q with
      | nil => exact absurd rfl hne
      | cons c qq => cases c <;> rfl
    | cons b pp =>
      cases q with
      | nil => cases b <;> rfl
      | cons c qq =>
        cases b <;> cases c
        · exact ihl pp qq k (fun e => hne (by rw [e]))
        · rfl
        · rfl
        · exact ihr pp qq k (fun e => hne (by rw [e]))

/-- Writing a key payload never changes the node structure. -/
theorem shape_setKeyAt {α : Type} :
    ∀ (t : AVLTree α) (p : List Bool) (k : α),
      shape (setKeyAt t p k) = shape t := by
  intro t
  induction t with
  | leaf => intro p k; rfl
  | node l y r ihl ihr =>
    intro p k
    cases p with
    | nil => rfl
    | cons b q =>
      cases b with
      | false => simp [setKeyAt, shape, ihl]
      | true => simp [setKeyAt, shape, ihr]

/-- C8: on any status tree holding two distinct segment ids `u` and `lo` at
paths `pu` and `pl`, a successful `reach_intersection_of` returns a tree of
identical shape — so every node handle, child link and (positional) parent
reference is unchanged — with the two key payloads exchanged and the key of
every other node unchanged. -/
theorem claim_C8_swap_frame (env : Env) (cx : ℚ) (t : AVLTree ℕ) (u lo : ℕ)
    (pu pl : List Bool) (t2 : AVLTree ℕ) (hul : u ≠ lo)
    (hu : findPathS env cx t u = some (some pu))
    (hl : findPathS env cx t lo = some (some pl))
    (h : reach_intersection_of env cx t u lo = some t2) :
    shape t2 = shape t ∧ keyAt t2 pu = some lo ∧ keyAt t2 pl = some u ∧
    ∀ q, q ≠ pu → q ≠ pl → keyAt t2 q = keyAt t q := by
  have hku : keyAt t pu = some u := findPathS_keyAt env cx t u pu hu
  have hkl : keyAt t pl = some lo := findPathS_keyAt env cx t lo pl hl
  have hne : pu ≠ pl := by
    intro e
    rw [e, hkl] at hku
    exact hul (Option.some.inj hku).symm
  unfold reach_intersection_of at h
  rw [hu, hl] at h
  simp only [Option.bind_eq_bind, Option.some_bind, hku, hkl,
    Option.pure_def, Option.some.injEq] at h
  subst h
  refine ⟨(shape_setKeyAt _ pl u).trans (shape_setKeyAt t pu lo), ?_, ?_, ?_⟩
  · exact (keyAt_setKeyAt_other _ pl pu u hne).trans
      (keyAt_setKeyAt_same t pu u lo hku)
  · exact keyAt_setKeyAt_same (setKeyAt t pu lo) pl lo u
      ((keyAt_setKeyAt_other t pu pl lo (Ne.symm hne)).trans hkl)
  · intro q hqu hql
    exact (keyAt_setKeyAt_other _ pl q u hql).trans
      (keyAt_setKeyAt_other t pu q lo hqu)

/-- Witness for C8 at a concrete input: in the status tree `t8` of `env1`
(ids 0 at the root, 1 at its right child) the swap of ids 0 and 1 yields
`t8s`, same shape, keys exchanged, all other paths unchanged. -/
theorem claim_C8_swap_frame_witness :
    reach_intersection_of env1 (199/100) t8 0 1 = some t8s ∧
    (shape t8s = shape t8 ∧ keyAt t8s [] = some 1 ∧
      keyAt t8s [true] = some 0 ∧
      ∀ q, q ≠ ([] : List Bool) → q ≠ [true] → keyAt t8s q = keyAt t8 q) :=
  ⟨by with_unfolding_all decide,
    claim_C8_swap_frame env1 (199/100) t8 0 1 [] [true] t8s (by decide)
      (by with_unfolding_all decide) (by with_unfolding_all decide)
      (by with_unfolding_all decide)⟩

/-- C9: `value_at_x` returns `none` outside the segment's x-range, so the
status order comparison on the shared comparator crashes (`none`, the
source's TypeError on comparing `None`) whenever the comparator lies
outside the x-range of either compared segment; the driver reaches this on
`env9`: the third event is the intersection of `segA` and `segC` at
`x = 2`, handling it moves the comparator to `2 - 1/100`, which is outside
`segC`'s x-range, and the run crashes. -/
theorem claim_C9_comparator_crash :
    (∀ (s : Segment) (x : ℚ), x < s.startx ∨ x > s.endx →
      s.value_at_x x = none) ∧
    (∀ (env : Env) (cx : ℚ) (i j : ℕ) (a b : Segment),
      env[i]? = some a → env[j]? = some b →
      a.value_at_x cx = none ∨ b.value_at_x cx = none →
      segLt env cx i j = none ∧ segGt env cx i j = none) ∧
    (segC.value_at_x (2 - 1/100) = none ∧
      ((stepN env9 2 (initState env9)).bind (fun s =>
        s.events.get_nearest_event.map (fun e => (e.event_type, e.x))))
        = some (INTERSECTION, 2) ∧
      stepN env9 3 (initState env9) = none ∧
      plane_sweep env9 = none) := by
  refine ⟨?_, ?_, ?_⟩
  · intro s x hx
    simp only [Segment.value_at_x]
    rw [if_pos hx]
  · intro env cx i j a b ha hb hv
    constructor
    all_goals
      simp only [segLt, segGt, ha, hb, Option.bind_eq_bind, Option.some_bind]
      rcases hv with hv | hv
      · simp [hv]
      · cases hu : Segment.value_at_x a cx with
        | none => simp [hu]
        | some u => simp [hu, hv]
  · with_unfolding_all decide

end PlaneSweep
